import Mathlib

/-!
# Verification of the Staged Procurement Scheduler

Shallow embedding of the scheduling core of the EnergyTradingAnalysis
repository, together with proofs and refutations of the specification's
claims about it.

The embedded code:
* `sched_proc` from `src/scheduled_procurement.py` (the linspace/enumerate
  version): partition the price series into `n_parts` half-open index
  ranges, scan each segment with a ratcheting reference price, buy at the
  first index whose price exceeds `reference + limit`, and aggregate the
  cost `executed_price * (mwhs / n_parts)` over the executed segments.
* `sched_proc` from `modelling.py` (the index-while-loop version),
  embedded as `sched_proc_model`.
* the block-averaging preprocessor `price_avg` / `time_avg` from
  `src/scheduled_procurement.py`.

Prices, volumes and the limit are embedded as exact rationals (the spec
treats them as real numbers).  The partition boundaries, which the source
computes with binary64 floating point (`np.linspace(..., dtype=int)` and
`int(n/n_parts * len(price))`), are embedded twice: once with exact
rational arithmetic (`linspaceInt`, `modelParts`), and once with a
faithful model of IEEE-754 binary64 round-to-nearest-even (`fl64`,
`linspaceIntF`, `modelPartsF`) used to settle the claims that depend on
the floating-point behaviour of the boundary computation.
-/

set_option autoImplicit false

namespace EnergyTrading

/-- The reference update performed by both scan loops:
`if price[i] < ref: ref = price[i]` (else `ref` unchanged). -/
def scanStep (ref p : ℚ) : ℚ := if p < ref then p else ref

/-- `segment = price[start_idx:end_idx]` — the slice a segment scans.
Python slicing clamps to the list length, as `drop`/`take` do. -/
def segOf (price : List ℚ) (start stop : ℕ) : List ℚ :=
  (price.drop start).take (stop - start)

/-- The `for i, current_price in enumerate(segment)` loop of the source's
`sched_proc`: `off` is `start_idx + i`, `ref` the current reference.
Returns the executed index of the first trigger, `none` when the segment
ends without one. -/
def scanSegment (limit : ℚ) : ℚ → ℕ → List ℚ → Option ℕ
  | _, _, [] => none
  | ref, off, p :: rest =>
    if ref + limit < p then some off
    else scanSegment limit (scanStep ref p) (off + 1) rest

/-- Partition boundary `parts[p]` of `np.linspace(0, L, N + 1, dtype=int)`,
with exact rational arithmetic in place of binary64 (`linspaceIntF` below
is the binary64 version): interior entries are `trunc (p * (L / N))` and
the endpoint entry is assigned `stop = L` directly.  Values are
non-negative, so truncation toward zero is the floor. -/
def linspaceInt (L N p : ℕ) : ℕ :=
  if p = N then L else (⌊(p : ℚ) * ((L : ℚ) / (N : ℚ))⌋).toNat

/-- One segment of the source `sched_proc` loop body:
`if start_idx >= end_idx: continue`, else `ref = price[start_idx]` and
scan the slice.  The `[]` match arm is unreachable: every call has
`start < stop ≤ price.length`, so `price.drop start` is non-empty. -/
def segScan (price : List ℚ) (limit : ℚ) (start stop : ℕ) : Option ℕ :=
  if stop ≤ start then none
  else
    match price.drop start with
    | [] => none
    | r :: _ => scanSegment limit r start (segOf price start stop)

/-- `sched_proc` from `src/scheduled_procurement.py`: returns
`(buy_indic, total_price)` where
`total_price = np.sum(price[buy_indic] * (mwhs / n_parts))` if `buy_indic`
is non-empty and `0.0` otherwise. -/
def sched_proc (price : List ℚ) (mwhs : ℚ) (n_parts : ℕ) (limit : ℚ) :
    List ℕ × ℚ :=
  let L := price.length
  let buy_indic := (List.range n_parts).filterMap
    (fun p => segScan price limit (linspaceInt L n_parts p) (linspaceInt L n_parts (p + 1)))
  let total_price : ℚ :=
    if buy_indic = [] then 0
    else (buy_indic.map (fun i => price.getD i 0 * (mwhs / (n_parts : ℚ)))).sum
  (buy_indic, total_price)

/-- In exact arithmetic every linspace boundary is the integer
`p * L / N` (floor division); the endpoint assignment agrees with it. -/
theorem linspaceInt_eq (L N p : ℕ) (hN : 1 ≤ N) :
    linspaceInt L N p = p * L / N := by
  unfold linspaceInt
  by_cases hp : p = N
  · subst hp
    simp [Nat.mul_div_cancel_left _ (Nat.lt_of_lt_of_le Nat.zero_lt_one hN)]
  · simp only [hp, if_false]
    have h : (p : ℚ) * ((L : ℚ) / (N : ℚ)) = ((p * L : ℕ) : ℚ) / ((N : ℕ) : ℚ) := by
      push_cast; ring
    rw [h, Int.floor_toNat, Rat.natFloor_natCast_div_natCast]

/-- Partition boundary of `modelling.py`:
`parts = [int(n/n_parts * len(price)) for n in range(n_parts+1)]`, with
exact rational arithmetic in place of binary64 (`modelPartsF` below is
the binary64 version).  Values are non-negative, so `int` truncation is
the floor.  (For `n_parts = 0` the Python expression raises
`ZeroDivisionError`; `sched_proc_model` guards that case before this
function is used.) -/
def modelParts (L N p : ℕ) : ℕ := (⌊((p : ℚ) / (N : ℚ)) * (L : ℚ)⌋).toNat

/-- In exact arithmetic the modelling.py boundary also equals `p * L / N`.
(Also true for `N = 0`, where both sides degenerate to `0`.) -/
theorem modelParts_eq (L N p : ℕ) :
    modelParts L N p = p * L / N := by
  unfold modelParts
  have h : ((p : ℚ) / (N : ℚ)) * (L : ℚ) = ((p * L : ℕ) : ℚ) / ((N : ℕ) : ℚ) := by
    push_cast; ring
  rw [h, Int.floor_toNat, Rat.natFloor_natCast_div_natCast]

/-- The `while i < parts[p+1]` loop of modelling.py's `sched_proc`,
in structural form: the first argument counts the remaining iterations
`stop - i`, so `0` is the loop exit `i ≥ stop`.  The body is
`if price[i] > ref + limit: buy_indic.append(i); break` and
`if price[i] < ref: ref = price[i]`.  In every reachable state
`i < stop ≤ price.length`, so the `getD` default is never read. -/
def whileScanAux (price : List ℚ) (limit : ℚ) : ℕ → ℚ → ℕ → Option ℕ
  | 0, _, _ => none
  | n + 1, ref, i =>
    let p := price.getD i 0
    if ref + limit < p then some i
    else whileScanAux price limit n (scanStep ref p) (i + 1)

/-- The `while i < parts[p+1]` loop: run `whileScanAux` for the
`stop - i` iterations the loop performs. -/
def whileScan (price : List ℚ) (limit : ℚ) (stop : ℕ) (ref : ℚ) (i : ℕ) :
    Option ℕ :=
  whileScanAux price limit (stop - i) ref i

/-- `sched_proc` from `modelling.py` (the index-while-loop version).
`none` models an uncaught Python exception: `ZeroDivisionError` when
`n_parts = 0` (raised while building the boundary list), and `IndexError`
when `ref = price[parts[p]]` reads out of range — which happens exactly
on an empty price series, where every boundary is `0`.
`total_price = np.sum(price[buy_indic] * (mwhs/n_parts))` with no
empty-list branch: `np.sum` of an empty array is `0.0`. -/
def sched_proc_model (price : List ℚ) (mwhs : ℚ) (n_parts : ℕ) (limit : ℚ) :
    Option (List ℕ × ℚ) :=
  if n_parts = 0 then none
  else
    let L := price.length
    let buys := (List.range n_parts).foldl
      (fun acc p =>
        acc.bind (fun bs =>
          match price.get? (modelParts L n_parts p) with
          | none => none
          | some r =>
            some (bs ++ (whileScan price limit (modelParts L n_parts (p + 1)) r
              (modelParts L n_parts p)).toList)))
      (some [])
    buys.map (fun bs =>
      (bs, (bs.map (fun i => price.getD i 0 * (mwhs / (n_parts : ℚ)))).sum))

/-! ## Series Preprocessor (`src/scheduled_procurement.py`)

`price_avg_full = pd.Series(price).rolling(window=w).mean()` and
`price_avg = price_avg_full[w-1::w]`, `time_avg = time[w-1::w]`.
The rolling mean at position `j` (defined once `j ≥ w - 1`) is the mean
of `price[j-w+1 .. j]`; the strided slice `[w-1::w]` selects positions
`w - 1 + k * w` for `k = 0, 1, ...` while they are `< L`, which is
exactly `L / w` positions (for `w ≥ 1`).  Only positions `≥ w - 1` are
selected, so the leading NaN entries of the rolling mean are never
read. -/

/-- `rolling(window=w).mean()` at position `j`: the mean of the `w`
samples ending at `j` (meaningful for `j ≥ w - 1`; truncated subtraction
makes earlier positions read a shorter prefix, but those are never
sampled by `price_avg`). -/
def rollingMean (price : List ℚ) (w j : ℕ) : ℚ :=
  ((price.drop (j + 1 - w)).take w).sum / (w : ℚ)

/-- `price_avg = price_avg_full[w-1::w]`: the rolling mean sampled at
stride `w` starting from the first complete window. -/
def price_avg (price : List ℚ) (w : ℕ) : List ℚ :=
  (List.range (price.length / w)).map (fun k => rollingMean price w (w - 1 + k * w))

/-- `time_avg = time[w-1::w]`: timestamps sampled at the same stride. -/
def time_avg (time : List ℚ) (w : ℕ) : List ℚ :=
  (List.range (time.length / w)).map (fun k => time.getD (w - 1 + k * w) 0)

/-! ## IEEE-754 binary64 model

The partition boundaries are computed by the source in binary64.  A
binary64 value in the normal range is a rational `± m * 2 ^ (e - 52)`
with `2 ^ 52 ≤ m < 2 ^ 53`; every arithmetic result is the exact
rational result rounded to nearest, ties to even.  `fl64` implements
that rounding on ℚ (subnormals and overflow do not occur at the
magnitudes involved here and are not modelled). -/

/-- Round to the nearest integer, ties to even. -/
def rne (x : ℚ) : ℤ :=
  let n := ⌊x⌋
  if x - (n : ℚ) < 1/2 then n
  else if 1/2 < x - (n : ℚ) then n + 1
  else if 2 ∣ n then n else n + 1

/-- Round a rational to binary64 (round to nearest, ties to even), in
the normal range: scale `|q|` into `[2^52, 2^53)`, round the significand
to an integer, and scale back. -/
def fl64 (q : ℚ) : ℚ :=
  if q = 0 then 0
  else
    let e : ℤ := Int.log 2 |q|
    let s : ℚ := if q < 0 then -1 else 1
    s * (rne (|q| * (2 : ℚ) ^ ((52 : ℤ) - e)) : ℚ) * (2 : ℚ) ^ (e - (52 : ℤ))

/-- Binary64 partition boundary of `np.linspace(0, L, N + 1, dtype=int)`:
`step = delta / div` is the binary64 quotient of the converted
endpoints, interior entries are `p * step` (one binary64 multiplication;
`p` itself converts exactly for `p < 2^53`), the final entry is assigned
`stop` directly, and `astype(int)` truncates toward zero (= floor here,
all values being non-negative). -/
def linspaceIntF (L N p : ℕ) : ℕ :=
  if p = N then (⌊fl64 (L : ℚ)⌋).toNat
  else (⌊fl64 ((p : ℚ) * fl64 (fl64 (L : ℚ) / fl64 (N : ℚ)))⌋).toNat

/-- Binary64 partition boundary of modelling.py's
`int(n/n_parts * len(price))`: CPython's `n/n_parts` is the correctly
rounded binary64 quotient; the product with `len(price)` (exact for
lengths `< 2^53`) rounds once more; `int` truncates toward zero. -/
def modelPartsF (L N p : ℕ) : ℕ :=
  (⌊fl64 (fl64 ((p : ℚ) / (N : ℚ)) * (L : ℚ))⌋).toNat

/-- The segment scan of `src/scheduled_procurement.py` with the trigger
comparison `current_price > ref + limit` evaluated in binary64 (the sum
of two binary64 values rounds; the comparison itself is exact). -/
def scanSegmentF (limit : ℚ) : ℚ → ℕ → List ℚ → Option ℕ
  | _, _, [] => none
  | ref, off, p :: rest =>
    if fl64 (ref + limit) < p then some off
    else scanSegmentF limit (scanStep ref p) (off + 1) rest

/-- `segScan` with binary64 trigger arithmetic. -/
def segScanF (price : List ℚ) (limit : ℚ) (start stop : ℕ) : Option ℕ :=
  if stop ≤ start then none
  else
    match price.drop start with
    | [] => none
    | r :: _ => scanSegmentF limit r start (segOf price start stop)

/-- The executed-index list of `src/scheduled_procurement.py`'s
`sched_proc` with binary64 boundaries and trigger arithmetic.  (The cost
aggregation `np.sum(price[buy_indic] * (mwhs/n_parts))` is not repeated
here: comparing the executed-index lists of the two implementations does
not need it, and `np.sum`'s pairwise summation order is out of scope.) -/
def schedBuysF (price : List ℚ) (n_parts : ℕ) (limit : ℚ) : List ℕ :=
  (List.range n_parts).filterMap
    (fun p => segScanF price limit (linspaceIntF price.length n_parts p)
      (linspaceIntF price.length n_parts (p + 1)))

/-- The while loop of modelling.py's `sched_proc` with the trigger sum
`ref + limit` evaluated in binary64 (structural form, as
`whileScanAux`). -/
def whileScanAuxF (price : List ℚ) (limit : ℚ) : ℕ → ℚ → ℕ → Option ℕ
  | 0, _, _ => none
  | n + 1, ref, i =>
    let p := price.getD i 0
    if fl64 (ref + limit) < p then some i
    else whileScanAuxF price limit n (scanStep ref p) (i + 1)

/-- The executed-index list of modelling.py's `sched_proc` with binary64
boundaries and trigger arithmetic (`none` models the uncaught
`ZeroDivisionError` / `IndexError` exactly as in `sched_proc_model`). -/
def modelBuysF (price : List ℚ) (n_parts : ℕ) (limit : ℚ) : Option (List ℕ) :=
  if n_parts = 0 then none
  else
    (List.range n_parts).foldl
      (fun acc p =>
        acc.bind (fun bs =>
          match price.get? (modelPartsF price.length n_parts p) with
          | none => none
          | some r =>
            some (bs ++ (whileScanAuxF price limit
              (modelPartsF price.length n_parts (p + 1) -
                modelPartsF price.length n_parts p) r
              (modelPartsF price.length n_parts p)).toList)))
      (some [])

/-! ## Helper lemmas: binary64 rounding -/

/-- `fl64` fixes `0`. -/
theorem fl64_zero : fl64 0 = 0 := by
  unfold fl64
  simp

/-- Rounding an integer to the nearest integer is the identity. -/
theorem rne_intCast (n : ℤ) : rne (n : ℚ) = n := by
  unfold rne
  norm_num

/-- Evaluation rule for `rne` when the fractional part is below 1/2. -/
theorem rne_eq_of_lt_half (x : ℚ) (n : ℤ) (h1 : ⌊x⌋ = n)
    (h2 : x - (n : ℚ) < 1/2) : rne x = n := by
  unfold rne
  rw [h1, if_pos h2]

/-- Evaluation rule for `rne` when the fractional part is above 1/2. -/
theorem rne_eq_of_half_lt (x : ℚ) (n : ℤ) (h1 : ⌊x⌋ = n)
    (h2 : 1/2 < x - (n : ℚ)) : rne x = n + 1 := by
  unfold rne
  rw [h1, if_neg (by linarith), if_pos h2]

/-- `Int.log 2` is characterised by the enclosing powers of two. -/
theorem int_log_eq (q : ℚ) (e : ℤ) (h0 : 0 < q)
    (h1 : (2 : ℚ) ^ e ≤ q) (h2 : q < (2 : ℚ) ^ (e + 1)) :
    Int.log 2 q = e := by
  have hb : 1 < 2 := by norm_num
  have hc : ((2 : ℕ) : ℚ) = (2 : ℚ) := by norm_num
  have hle : e ≤ Int.log 2 q := by
    rw [← Int.zpow_le_iff_le_log hb h0, hc]
    exact h1
  have hlt : Int.log 2 q < e + 1 := by
    rw [← Int.lt_zpow_iff_log_lt hb h0, hc]
    exact h2
  omega

/-- Evaluation rule for `fl64` on a positive rational: supply the
exponent `e` (with `2^e ≤ q < 2^(e+1)`), the rounded significand `m`,
and the recombined value `r`. -/
theorem fl64_eq_of_pos (q r : ℚ) (e m : ℤ) (hq : 0 < q)
    (he1 : (2 : ℚ) ^ e ≤ q) (he2 : q < (2 : ℚ) ^ (e + 1))
    (hm : rne (q * (2 : ℚ) ^ ((52 : ℤ) - e)) = m)
    (hr : (m : ℚ) * (2 : ℚ) ^ (e - (52 : ℤ)) = r) :
    fl64 q = r := by
  unfold fl64
  rw [if_neg (ne_of_gt hq)]
  have habs : |q| = q := abs_of_pos hq
  simp only [habs]
  rw [int_log_eq q e hq he1 he2, if_neg (not_lt.mpr (le_of_lt hq)), hm, one_mul, hr]

/-- A positive rational of the form `m * 2^d` with `m < 2^53` is exactly
representable in binary64, so `fl64` fixes it. -/
theorem fl64_of_rep (q : ℚ) (m d : ℤ) (hm0 : 0 < m) (hm : m < 2 ^ 53)
    (hq : q = (m : ℚ) * (2 : ℚ) ^ d) : fl64 q = q := by
  have h2 : (0 : ℚ) < 2 := by norm_num
  have hq0 : 0 < q := by
    rw [hq]
    have := zpow_pos h2 d
    positivity
  have hlog : Int.log 2 q < d + 53 := by
    have hb : 1 < 2 := by norm_num
    rw [← Int.lt_zpow_iff_log_lt hb hq0]
    have hc : ((2 : ℕ) : ℚ) = (2 : ℚ) := by norm_num
    rw [hc, hq, zpow_add₀ (ne_of_gt h2) d]
    rw [mul_comm ((2 : ℚ) ^ d)]
    apply mul_lt_mul_of_pos_right _ (zpow_pos h2 d)
    calc (m : ℚ) < ((2 ^ 53 : ℤ) : ℚ) := by exact_mod_cast hm
      _ = (2 : ℚ) ^ (53 : ℤ) := by push_cast; norm_num
  set e := Int.log 2 q with he
  have hk0 : (0 : ℤ) ≤ d + 52 - e := by omega
  have hscale : q * (2 : ℚ) ^ ((52 : ℤ) - e) =
      ((m * 2 ^ (d + 52 - e).toNat : ℤ) : ℚ) := by
    rw [hq]
    push_cast
    rw [← zpow_natCast (2 : ℚ) (d + 52 - e).toNat, Int.toNat_of_nonneg hk0,
      mul_assoc, ← zpow_add₀ (ne_of_gt h2)]
    congr 2
    omega
  unfold fl64
  rw [if_neg (ne_of_gt hq0)]
  simp only [abs_of_pos hq0, if_neg (not_lt.mpr (le_of_lt hq0)), ← he]
  rw [hscale, rne_intCast, one_mul]
  push_cast
  rw [← zpow_natCast (2 : ℚ) (d + 52 - e).toNat, Int.toNat_of_nonneg hk0,
    mul_assoc, ← zpow_add₀ (ne_of_gt h2)]
  rw [hq]
  congr 2
  omega

/-- `fl64` fixes every natural number below `2^53`. -/
theorem fl64_natCast (n : ℕ) (h0 : 0 < n) (h : n < 2 ^ 53) :
    fl64 (n : ℚ) = (n : ℚ) := by
  apply fl64_of_rep _ (n : ℤ) 0
  · exact_mod_cast h0
  · exact_mod_cast h
  · norm_num

/-! ## Helper lemmas: exact partition boundaries -/

/-- Exact boundaries are monotone in the partition index. -/
theorem parts_mono (L N : ℕ) {p q : ℕ} (h : p ≤ q) :
    p * L / N ≤ q * L / N :=
  Nat.div_le_div_right (Nat.mul_le_mul_right L h)

/-- Exact boundaries never exceed the series length. -/
theorem parts_le (L N p : ℕ) (hp : p ≤ N) : p * L / N ≤ L := by
  rcases Nat.eq_zero_or_pos N with hN | hN
  · subst hN
    simp [Nat.le_zero.mp hp]
  · calc p * L / N ≤ N * L / N := parts_mono L N hp
      _ = L := Nat.mul_div_cancel_left L hN

/-- An interior boundary of a non-empty series is strictly below the
length. -/
theorem parts_lt (L N p : ℕ) (hp : p < N) (hL : 1 ≤ L) :
    p * L / N < L := by
  have hN : 0 < N := Nat.lt_of_le_of_lt (Nat.zero_le p) hp
  rw [Nat.div_lt_iff_lt_mul hN]
  calc p * L < N * L := mul_lt_mul_of_pos_right hp hL
    _ = L * N := Nat.mul_comm N L

/-! ## Helper lemmas: the segment scan -/

/-- The reference value the scan holds just before it examines element
`k` of the segment it scans, having started from `ref`: the fold of the
scan's own update rule over the first `k` elements. -/
def refAt (ref : ℚ) (seg : List ℚ) (k : ℕ) : ℚ :=
  (seg.take k).foldl scanStep ref

/-- The reference update never increases the reference. -/
theorem scanStep_le (ref p : ℚ) : scanStep ref p ≤ ref := by
  unfold scanStep
  split
  · linarith
  · exact le_refl ref

/-- The reference update is the binary minimum. -/
theorem scanStep_eq_min (ref p : ℚ) : scanStep ref p = min ref p := by
  unfold scanStep
  rw [min_def]
  split_ifs <;> first | rfl | linarith

/-- Folding the reference update is folding `min`. -/
theorem foldl_scanStep_eq_min (l : List ℚ) :
    ∀ ref : ℚ, l.foldl scanStep ref = l.foldl min ref := by
  induction l with
  | nil => intro ref; rfl
  | cons p rest ih =>
    intro ref
    simp only [List.foldl_cons, scanStep_eq_min, ih]

/-- Folding the reference update never increases the start value. -/
theorem foldl_scanStep_le (l : List ℚ) :
    ∀ ref : ℚ, l.foldl scanStep ref ≤ ref := by
  induction l with
  | nil => intro ref; exact le_refl ref
  | cons p rest ih =>
    intro ref
    exact le_trans (ih (scanStep ref p)) (scanStep_le ref p)

/-- Before the first element the reference is the initial value. -/
theorem refAt_zero (ref : ℚ) (seg : List ℚ) : refAt ref seg 0 = ref := rfl

/-- One scan step advances the reference by the scan's update rule. -/
theorem refAt_succ (ref : ℚ) (seg : List ℚ) (k : ℕ) (hk : k < seg.length) :
    refAt ref seg (k + 1) = scanStep (refAt ref seg k) (seg.getD k 0) := by
  unfold refAt
  rw [List.take_succ, List.foldl_append, List.getElem?_eq_getElem hk,
    List.getD_eq_getElem _ _ hk]
  rfl

/-- Stepping into a cons segment. -/
theorem refAt_cons (ref p : ℚ) (rest : List ℚ) (k : ℕ) :
    refAt ref (p :: rest) (k + 1) = refAt (scanStep ref p) rest k := by
  unfold refAt
  rw [List.take_succ_cons, List.foldl_cons]

/-- The reference never rises above its initial value. -/
theorem refAt_le_self (ref : ℚ) (seg : List ℚ) (k : ℕ) :
    refAt ref seg k ≤ ref :=
  foldl_scanStep_le _ ref

/-- The reference is the minimum of the initial value and the elements
examined so far. -/
theorem refAt_eq_min_fold (ref : ℚ) (seg : List ℚ) (k : ℕ) :
    refAt ref seg k = (seg.take k).foldl min ref :=
  foldl_scanStep_eq_min _ ref

/-- What a successful segment scan guarantees: the executed offset `k`
is inside the segment, the trigger condition held there against the
reference the scan had accumulated, that reference is at most the
initial one, and no earlier element triggered (first-trigger policy). -/
theorem scanSegment_spec (seg : List ℚ) :
    ∀ (limit ref : ℚ) (off j : ℕ), scanSegment limit ref off seg = some j →
    ∃ k, k < seg.length ∧ j = off + k ∧
      refAt ref seg k + limit < seg.getD k 0 ∧
      refAt ref seg k ≤ ref ∧
      ∀ m, m < k → seg.getD m 0 ≤ refAt ref seg m + limit := by
  induction seg with
  | nil =>
    intro limit ref off j h
    simp [scanSegment] at h
  | cons p rest ih =>
    intro limit ref off j h
    rw [scanSegment] at h
    by_cases htr : ref + limit < p
    · rw [if_pos htr] at h
      have hj : j = off := by
        simpa using h.symm
      refine ⟨0, by simp, by omega, ?_, le_refl ref, ?_⟩
      · simpa [refAt_zero] using htr
      · intro m hm
        exact absurd hm (Nat.not_lt_zero m)
    · rw [if_neg htr] at h
      obtain ⟨k, hk, hj, htrig, hle, hmin⟩ := ih limit (scanStep ref p) (off + 1) j h
      refine ⟨k + 1, by simpa using Nat.succ_lt_succ hk, by omega, ?_, ?_, ?_⟩
      · rw [refAt_cons, List.getD_cons_succ]
        exact htrig
      · rw [refAt_cons]
        exact le_trans hle (scanStep_le ref p)
      · intro m hm
        match m with
        | 0 =>
          rw [List.getD_cons_zero, refAt_zero]
          linarith [not_lt.mp htr]
        | m' + 1 =>
          rw [refAt_cons, List.getD_cons_succ]
          exact hmin m' (by omega)

/-- Length of a segment slice (when the right endpoint is in range). -/
theorem segOf_length (price : List ℚ) (start stop : ℕ)
    (h : stop ≤ price.length) :
    (segOf price start stop).length = stop - start := by
  unfold segOf
  rw [List.length_take, List.length_drop]
  omega

/-- Elements of a segment slice are the corresponding series prices. -/
theorem segOf_getD (price : List ℚ) (start stop k : ℕ)
    (h1 : start + k < stop) (h2 : stop ≤ price.length) :
    (segOf price start stop).getD k 0 = price.getD (start + k) 0 := by
  have hlen : k < (segOf price start stop).length := by
    rw [segOf_length _ _ _ h2]
    omega
  have hpk : start + k < price.length := by omega
  rw [List.getD_eq_getElem _ _ hlen, List.getD_eq_getElem _ _ hpk]
  unfold segOf at hlen ⊢
  rw [List.getElem_take, List.getElem_drop]

/-! ## Helper lemmas: scheduler structure -/

/-- The executed-index list of `sched_proc`, unfolded. -/
theorem sched_proc_fst (price : List ℚ) (mwhs : ℚ) (N : ℕ) (limit : ℚ) :
    (sched_proc price mwhs N limit).1 =
      (List.range N).filterMap
        (fun p => segScan price limit (linspaceInt price.length N p)
          (linspaceInt price.length N (p + 1))) := rfl

/-- The total is always the sum of `price[i] * (mwhs / N)` over the
executed indices: the `0.0` branch for an empty `buy_indic` coincides
with the empty sum. -/
theorem sched_proc_snd (price : List ℚ) (mwhs : ℚ) (N : ℕ) (limit : ℚ) :
    (sched_proc price mwhs N limit).2 =
      ((sched_proc price mwhs N limit).1.map
        (fun i => price.getD i 0 * (mwhs / (N : ℚ)))).sum := by
  unfold sched_proc
  dsimp only
  split_ifs with h
  · rw [h]
    simp
  · rfl

/-- Summing a function over `filterMap f` is summing, over the original
list, the function through `f` with `0` for `none`. -/
theorem sum_map_filterMap (l : List ℕ) (f : ℕ → Option ℕ) (g : ℕ → ℚ) :
    ((l.filterMap f).map g).sum =
      (l.map (fun p => ((f p).map g).getD 0)).sum := by
  induction l with
  | nil => rfl
  | cons p rest ih =>
    rw [List.filterMap_cons]
    cases hf : f p with
    | none => simp [hf, ih]
    | some j => simp [hf, ih]

/-- The while loop and the enumerate loop compute the same scan: with
`n` remaining iterations from index `i` (all indices in range), the
while loop is the slice scan of `price[i : i+n]`. -/
theorem whileScanAux_eq_scanSegment (price : List ℚ) (limit : ℚ) :
    ∀ (n : ℕ) (ref : ℚ) (i : ℕ), i + n ≤ price.length →
      whileScanAux price limit n ref i =
        scanSegment limit ref i ((price.drop i).take n) := by
  intro n
  induction n with
  | zero =>
    intro ref i h
    simp [whileScanAux, scanSegment]
  | succ n ih =>
    intro ref i h
    have hi : i < price.length := by omega
    have hdrop : price.drop i = price.getD i 0 :: price.drop (i + 1) := by
      rw [List.getD_eq_getElem _ _ hi]
      exact List.drop_eq_getElem_cons hi
    rw [whileScanAux, hdrop, List.take_succ_cons, scanSegment]
    by_cases htr : ref + limit < price.getD i 0
    · rw [if_pos htr, if_pos htr]
    · rw [if_neg htr, if_neg htr, ih (scanStep ref (price.getD i 0)) (i + 1) (by omega)]

/-- The while loop from `parts[p]` to `parts[p+1]` equals the source
version's slice scan of the same segment (non-empty case). -/
theorem whileScan_eq_segScan (price : List ℚ) (limit : ℚ) (start stop : ℕ)
    (hss : start < stop) (hstop : stop ≤ price.length) :
    whileScan price limit stop (price.getD start 0) start =
      segScan price limit start stop := by
  unfold whileScan segScan
  rw [if_neg (by omega)]
  have hstart : start < price.length := by omega
  have hdrop : price.drop start = price.getD start 0 :: price.drop (start + 1) := by
    rw [List.getD_eq_getElem _ _ hstart]
    exact List.drop_eq_getElem_cons hstart
  rw [whileScanAux_eq_scanSegment price limit (stop - start) _ start (by omega)]
  unfold segOf
  rw [hdrop]

/-- Running the modelling.py accumulation loop when every boundary read
succeeds: the fold collects, in order, the executed index of each
segment. -/
theorem foldl_collect (get : ℕ → Option ℚ) (scan : ℕ → ℚ → Option ℕ) :
    ∀ (l : List ℕ) (bs : List ℕ), (∀ p ∈ l, (get p).isSome) →
      l.foldl (fun acc p =>
        acc.bind (fun b =>
          match get p with
          | none => none
          | some r => some (b ++ (scan p r).toList))) (some bs) =
      some (bs ++ l.filterMap (fun p => (get p).bind (scan p))) := by
  intro l
  induction l with
  | nil =>
    intro bs _
    simp
  | cons p rest ih =>
    intro bs h
    have hp : (get p).isSome := h p (List.mem_cons_self p rest)
    obtain ⟨r, hr⟩ := Option.isSome_iff_exists.mp hp
    rw [List.foldl_cons, List.filterMap_cons]
    simp only [Option.bind_eq_bind, Option.some_bind, hr]
    rw [ih _ (fun q hq => h q (List.mem_cons_of_mem p hq))]
    cases hs : scan p r <;> simp [hs, List.append_assoc]

/-- modelling.py's `sched_proc` refines the source version: on a
non-empty series with `N ≥ 1` (where neither raises), both return the
same executed indices and the same total cost, because in exact
arithmetic their partition boundaries coincide and their loops perform
the same scan. -/
theorem model_eq_sched_proc (price : List ℚ) (mwhs : ℚ) (N : ℕ)
    (limit : ℚ) (hp : price ≠ []) (hN : 1 ≤ N) :
    sched_proc_model price mwhs N limit =
      some (sched_proc price mwhs N limit) := by
  have hL : 1 ≤ price.length := List.length_pos.mpr hp
  unfold sched_proc_model
  rw [if_neg (by omega)]
  dsimp only
  have hget : ∀ p ∈ List.range N,
      ((fun p => price.get? (modelParts price.length N p)) p).isSome := by
    intro p hpmem
    have hplt : p < N := List.mem_range.mp hpmem
    have hi : modelParts price.length N p < price.length := by
      rw [modelParts_eq]
      exact parts_lt _ _ _ hplt hL
    simp [List.get?_eq_getElem?, List.getElem?_eq_getElem hi]
  rw [foldl_collect (fun p => price.get? (modelParts price.length N p))
    (fun p r => whileScan price limit (modelParts price.length N (p + 1)) r
      (modelParts price.length N p)) (List.range N) [] hget]
  have hseg : ∀ p ∈ List.range N,
      (price.get? (modelParts price.length N p)).bind
        (fun r => whileScan price limit (modelParts price.length N (p + 1)) r
          (modelParts price.length N p)) =
      segScan price limit (linspaceInt price.length N p)
        (linspaceInt price.length N (p + 1)) := by
    intro p hpmem
    have hplt : p < N := List.mem_range.mp hpmem
    have hi : modelParts price.length N p < price.length := by
      rw [modelParts_eq]
      exact parts_lt _ _ _ hplt hL
    have hread : price.get? (modelParts price.length N p) =
        some (price.getD (modelParts price.length N p) 0) := by
      rw [List.get?_eq_getElem?, List.getElem?_eq_getElem hi,
        List.getD_eq_getElem _ _ hi]
    rw [hread, Option.some_bind, modelParts_eq, modelParts_eq,
      linspaceInt_eq _ _ _ hN, linspaceInt_eq _ _ _ hN]
    by_cases hss : p * price.length / N < (p + 1) * price.length / N
    · exact whileScan_eq_segScan price limit _ _ hss
        (parts_le _ _ _ (by omega))
    · have hz : (p + 1) * price.length / N - p * price.length / N = 0 := by
        omega
      unfold whileScan segScan
      rw [hz]
      rw [if_pos (by omega)]
      rfl
  rw [List.filterMap_congr hseg, List.nil_append,
    ← sched_proc_fst price mwhs N limit, Option.map_some']
  exact congrArg some (Prod.ext rfl (sched_proc_snd price mwhs N limit).symm)

/-- Every index of the series lies in exactly one segment of the exact
partition. -/
theorem parts_cover (L N : ℕ) (hN : 1 ≤ N) (i : ℕ) (hi : i < L) :
    ∃! p, p < N ∧ p * L / N ≤ i ∧ i < (p + 1) * L / N := by
  have hPN : ¬ (N * L / N ≤ i) := by
    rw [Nat.mul_div_cancel_left L (by omega)]
    omega
  have hP0 : 0 * L / N ≤ i := by simp
  set p0 := Nat.findGreatest (fun p => p * L / N ≤ i) N with hp0
  have hp0P : p0 * L / N ≤ i :=
    Nat.findGreatest_spec (P := fun p => p * L / N ≤ i) (m := 0) (Nat.zero_le N) hP0
  have hp0le : p0 ≤ N := Nat.findGreatest_le N
  have hp0lt : p0 < N := by
    rcases Nat.lt_or_ge p0 N with h | h
    · exact h
    · have : p0 = N := by omega
      rw [this] at hp0P
      exact absurd hp0P hPN
  have hgr : ∀ k, p0 < k → k ≤ N → ¬ (k * L / N ≤ i) := by
    intro k hk hkN
    exact (Nat.findGreatest_eq_iff.1 hp0.symm).2.2 hk hkN
  have hup : i < (p0 + 1) * L / N := by
    by_contra hc
    exact hgr (p0 + 1) (by omega) (by omega) (by omega)
  refine ⟨p0, ⟨hp0lt, hp0P, hup⟩, ?_⟩
  rintro q ⟨hqN, hq1, hq2⟩
  rcases Nat.lt_trichotomy q p0 with h | h | h
  · exfalso
    have : (q + 1) * L / N ≤ p0 * L / N := parts_mono L N (by omega)
    omega
  · exact h
  · exact absurd hq1 (hgr q h (by omega))

/-- If there are more segments than indices, some segment is empty. -/
theorem exists_empty_segment (L N : ℕ) (hL : L < N) :
    ∃ p, p < N ∧ p * L / N = (p + 1) * L / N := by
  by_contra h
  push_neg at h
  have hstrict : ∀ p, p < N → p * L / N < (p + 1) * L / N := fun p hp =>
    lt_of_le_of_ne (parts_mono L N (by omega)) (h p hp)
  have hge : ∀ p, p ≤ N → p ≤ p * L / N := by
    intro p
    induction p with
    | zero => intro _; exact Nat.zero_le _
    | succ q ih =>
      intro hq
      have h1 := hstrict q (by omega)
      have h2 := ih (by omega)
      omega
  have hNN := hge N (le_refl N)
  rw [Nat.mul_div_cancel_left L (by omega)] at hNN
  omega

/-- A zero-length segment is skipped: the guard
`if start_idx >= end_idx: continue` fires before any price is read. -/
theorem segScan_none_of_le (price : List ℚ) (limit : ℚ) (start stop : ℕ)
    (h : stop ≤ start) : segScan price limit start stop = none := by
  unfold segScan
  rw [if_pos h]

/-- On a non-empty segment the source scan is the slice scan seeded with
the segment's first price. -/
theorem segScan_eq (price : List ℚ) (limit : ℚ) (start stop : ℕ)
    (hss : start < stop) (hstop : stop ≤ price.length) :
    segScan price limit start stop =
      scanSegment limit (price.getD start 0) start (segOf price start stop) := by
  unfold segScan
  rw [if_neg (by omega)]
  have hstart : start < price.length := by omega
  rw [List.getD_eq_getElem _ _ hstart, List.drop_eq_getElem_cons hstart]

/-- All boundaries of a zero-length series are zero. -/
theorem linspaceInt_zero (N p : ℕ) : linspaceInt 0 N p = 0 := by
  unfold linspaceInt
  split
  · rfl
  · simp

/-- The source `sched_proc` completes normally on an empty series:
every segment is zero-length and skipped, no execution is recorded, and
the `0.0` branch of the cost computation is taken. -/
theorem sched_proc_nil (mwhs : ℚ) (N : ℕ) (limit : ℚ) :
    sched_proc [] mwhs N limit = ([], 0) := by
  unfold sched_proc
  dsimp only
  have hfm : (List.range N).filterMap
      (fun p => segScan [] limit (linspaceInt (List.length ([] : List ℚ)) N p)
        (linspaceInt (List.length ([] : List ℚ)) N (p + 1))) = [] := by
    rw [List.filterMap_eq_nil_iff]
    intro p _
    simp only [List.length_nil, linspaceInt_zero]
    exact segScan_none_of_le [] limit 0 0 (le_refl 0)
  rw [hfm]
  simp

/-- The step function of the modelling.py fold propagates failure. -/
theorem foldl_bind_none (g : List ℕ → ℕ → Option (List ℕ)) :
    ∀ l : List ℕ, l.foldl (fun acc p => acc.bind (fun bs => g bs p)) none = none := by
  intro l
  induction l with
  | nil => rfl
  | cons p rest ih =>
    rw [List.foldl_cons]
    simpa using ih

/-- modelling.py's `sched_proc` raises (`IndexError` at
`ref = price[parts[p]]`) on an empty series, for every `N ≥ 1`. -/
theorem sched_proc_model_nil (mwhs : ℚ) (N : ℕ) (limit : ℚ) (hN : 1 ≤ N) :
    sched_proc_model [] mwhs N limit = none := by
  obtain ⟨M, rfl⟩ : ∃ M, N = M + 1 := ⟨N - 1, by omega⟩
  unfold sched_proc_model
  rw [if_neg (by omega)]
  dsimp only
  rw [List.range_succ_eq_map, List.foldl_cons]
  have hstep : (some ([] : List ℕ)).bind
      (fun bs =>
        match ([] : List ℚ).get? (modelParts (List.length ([] : List ℚ)) (M + 1) 0) with
        | none => none
        | some r =>
          some (bs ++ (whileScan [] limit (modelParts (List.length ([] : List ℚ)) (M + 1) (0 + 1)) r
            (modelParts (List.length ([] : List ℚ)) (M + 1) 0)).toList)) = none := by
    rfl
  rw [hstep]
  rw [foldl_bind_none]
  rfl

/-- The total cost decomposes as a sum over the `N` segments, each
executed segment contributing `price[j] * (mwhs / N)` and each
non-executed segment contributing `0`. -/
theorem sched_proc_total_decomp (price : List ℚ) (mwhs : ℚ) (N : ℕ) (limit : ℚ) :
    (sched_proc price mwhs N limit).2 =
      ((List.range N).map (fun p =>
        match segScan price limit (linspaceInt price.length N p)
            (linspaceInt price.length N (p + 1)) with
        | some j => price.getD j 0 * (mwhs / (N : ℚ))
        | none => 0)).sum := by
  rw [sched_proc_snd, sched_proc_fst, sum_map_filterMap]
  apply congrArg
  apply List.map_congr_left
  intro p _
  cases hs : segScan price limit (linspaceInt price.length N p)
      (linspaceInt price.length N (p + 1)) <;> simp [hs]

/-! ## Helper lemmas: preprocessor -/

/-- The reduced price series has `⌊L / w⌋` entries. -/
theorem price_avg_length (price : List ℚ) (w : ℕ) :
    (price_avg price w).length = price.length / w := by
  unfold price_avg
  simp

/-- The reduced timestamp series has `⌊L / w⌋` entries. -/
theorem time_avg_length (time : List ℚ) (w : ℕ) :
    (time_avg time w).length = time.length / w := by
  unfold time_avg
  simp

/-- A sampled rolling-mean entry is the mean of the `k`-th
non-overlapping block of `w` raw samples. -/
theorem price_avg_getD (price : List ℚ) (w k : ℕ) (hw : 0 < w)
    (hk : k < price.length / w) :
    (price_avg price w).getD k 0 = ((price.drop (k * w)).take w).sum / (w : ℚ) := by
  unfold price_avg
  have hk' : k < ((List.range (price.length / w)).map
      (fun k => rollingMean price w (w - 1 + k * w))).length := by
    simpa using hk
  rw [List.getD_eq_getElem _ _ hk', List.getElem_map, List.getElem_range]
  unfold rollingMean
  have hidx : w - 1 + k * w + 1 - w = k * w := by omega
  rw [hidx]

/-- Each block read by the preprocessor has exactly `w` samples (the
trailing remainder shorter than `w` is never selected). -/
theorem block_length (price : List ℚ) (w k : ℕ) (hw : 0 < w)
    (hk : k < price.length / w) :
    ((price.drop (k * w)).take w).length = w := by
  rw [List.length_take, List.length_drop]
  have h1 : k + 1 ≤ price.length / w := hk
  have h2 : (k + 1) * w ≤ price.length / w * w := Nat.mul_le_mul_right w h1
  have h3 : price.length / w * w ≤ price.length := Nat.div_mul_le_self _ _
  have h4 : (k + 1) * w = k * w + w := by ring
  omega

/-- A sampled timestamp is the raw timestamp at `w - 1 + k * w`, the
last position of block `k`. -/
theorem time_avg_getD (time : List ℚ) (w k : ℕ) (hk : k < time.length / w) :
    (time_avg time w).getD k 0 = time.getD (w - 1 + k * w) 0 := by
  unfold time_avg
  have hk' : k < ((List.range (time.length / w)).map
      (fun k => time.getD (w - 1 + k * w) 0)).length := by
    simpa using hk
  rw [List.getD_eq_getElem _ _ hk', List.getElem_map, List.getElem_range]

/-! ## Concrete binary64 evaluations

Values used by the counterexample computations.  Each two-step rounding
follows the same scheme: evaluate the correctly rounded quotient, then
the correctly rounded product, via `fl64_eq_of_pos` with explicit
significands. -/

/-- `fl64` fixes the small integers used below. -/
theorem fl64_one : fl64 (1 : ℚ) = 1 := by
  have h := fl64_natCast 1 (by norm_num) (by norm_num)
  norm_num at h
  exact h

theorem fl64_nine : fl64 (9 : ℚ) = 9 := by
  have h := fl64_natCast 9 (by norm_num) (by norm_num)
  norm_num at h
  exact h

theorem fl64_fortyfive : fl64 (45 : ℚ) = 45 := by
  have h := fl64_natCast 45 (by norm_num) (by norm_num)
  norm_num at h
  exact h

theorem fl64_ninety : fl64 (90 : ℚ) = 90 := by
  have h := fl64_natCast 90 (by norm_num) (by norm_num)
  norm_num at h
  exact h

theorem fl64_ninetynine : fl64 (99 : ℚ) = 99 := by
  have h := fl64_natCast 99 (by norm_num) (by norm_num)
  norm_num at h
  exact h

/-- Boundary `int(0/10 * 90) = 0`. -/
theorem mp90_0 : modelPartsF 90 10 0 = 0 := by
  unfold modelPartsF
  have hc : ((0 : ℕ) : ℚ) / ((10 : ℕ) : ℚ) = 0 := by norm_num
  rw [hc, fl64_zero, zero_mul, fl64_zero]
  norm_num

/-- Boundary `int(1/10 * 90) = 9`. -/
theorem mp90_1 : modelPartsF 90 10 1 = 9 := by
  unfold modelPartsF
  have h1 : fl64 (((1 : ℕ) : ℚ) / ((10 : ℕ) : ℚ)) =
      7205759403792794 * (2 : ℚ) ^ (-(56 : ℤ)) := by
    have hc : ((1 : ℕ) : ℚ) / ((10 : ℕ) : ℚ) = 1 / 10 := by norm_num
    rw [hc]
    apply fl64_eq_of_pos _ _ (-4) 7205759403792794 (by norm_num) (by norm_num)
      (by norm_num)
    · rw [rne_eq_of_half_lt _ 7205759403792793 (by norm_num) (by norm_num)]
      norm_num
    · norm_num
  rw [h1]
  have harg : 7205759403792794 * (2 : ℚ) ^ (-(56 : ℤ)) * ((90 : ℕ) : ℚ) =
      648518346341351460 * (2 : ℚ) ^ (-(56 : ℤ)) := by
    push_cast
    ring_nf
  rw [harg]
  have h2 : fl64 ((648518346341351460 : ℚ) * (2 : ℚ) ^ (-(56 : ℤ))) = 9 := by
    apply fl64_eq_of_pos _ _ 3 5066549580791808 (by norm_num) (by norm_num)
      (by norm_num)
    · exact rne_eq_of_lt_half _ _ (by norm_num) (by norm_num)
    · norm_num
  rw [h2]
  norm_num
  rfl

/-- Boundary `int(2/10 * 90) = 18`. -/
theorem mp90_2 : modelPartsF 90 10 2 = 18 := by
  unfold modelPartsF
  have h1 : fl64 (((2 : ℕ) : ℚ) / ((10 : ℕ) : ℚ)) =
      7205759403792794 * (2 : ℚ) ^ (-(55 : ℤ)) := by
    have hc : ((2 : ℕ) : ℚ) / ((10 : ℕ) : ℚ) = 1 / 5 := by norm_num
    rw [hc]
    apply fl64_eq_of_pos _ _ (-3) 7205759403792794 (by norm_num) (by norm_num)
      (by norm_num)
    · rw [rne_eq_of_half_lt _ 7205759403792793 (by norm_num) (by norm_num)]
      norm_num
    · norm_num
  rw [h1]
  have harg : 7205759403792794 * (2 : ℚ) ^ (-(55 : ℤ)) * ((90 : ℕ) : ℚ) =
      648518346341351460 * (2 : ℚ) ^ (-(55 : ℤ)) := by
    push_cast
    ring_nf
  rw [harg]
  have h2 : fl64 ((648518346341351460 : ℚ) * (2 : ℚ) ^ (-(55 : ℤ))) = 18 := by
    apply fl64_eq_of_pos _ _ 4 5066549580791808 (by norm_num) (by norm_num)
      (by norm_num)
    · exact rne_eq_of_lt_half _ _ (by norm_num) (by norm_num)
    · norm_num
  rw [h2]
  norm_num
  rfl

/-- Boundary `int(3/10 * 90) = 27`. -/
theorem mp90_3 : modelPartsF 90 10 3 = 27 := by
  unfold modelPartsF
  have h1 : fl64 (((3 : ℕ) : ℚ) / ((10 : ℕ) : ℚ)) =
      5404319552844595 * (2 : ℚ) ^ (-(54 : ℤ)) := by
    have hc : ((3 : ℕ) : ℚ) / ((10 : ℕ) : ℚ) = 3 / 10 := by norm_num
    rw [hc]
    apply fl64_eq_of_pos _ _ (-2) 5404319552844595 (by norm_num) (by norm_num)
      (by norm_num)
    · exact rne_eq_of_lt_half _ _ (by norm_num) (by norm_num)
    · norm_num
  rw [h1]
  have harg : 5404319552844595 * (2 : ℚ) ^ (-(54 : ℤ)) * ((90 : ℕ) : ℚ) =
      486388759756013550 * (2 : ℚ) ^ (-(54 : ℤ)) := by
    push_cast
    ring_nf
  rw [harg]
  have h2 : fl64 ((486388759756013550 : ℚ) * (2 : ℚ) ^ (-(54 : ℤ))) = 27 := by
    apply fl64_eq_of_pos _ _ 4 7599824371187712 (by norm_num) (by norm_num)
      (by norm_num)
    · rw [rne_eq_of_half_lt _ 7599824371187711 (by norm_num) (by norm_num)]
      norm_num
    · norm_num
  rw [h2]
  norm_num
  rfl

/-- Boundary `int(4/10 * 90) = 36`. -/
theorem mp90_4 : modelPartsF 90 10 4 = 36 := by
  unfold modelPartsF
  have h1 : fl64 (((4 : ℕ) : ℚ) / ((10 : ℕ) : ℚ)) =
      7205759403792794 * (2 : ℚ) ^ (-(54 : ℤ)) := by
    have hc : ((4 : ℕ) : ℚ) / ((10 : ℕ) : ℚ) = 2 / 5 := by norm_num
    rw [hc]
    apply fl64_eq_of_pos _ _ (-2) 7205759403792794 (by norm_num) (by norm_num)
      (by norm_num)
    · rw [rne_eq_of_half_lt _ 7205759403792793 (by norm_num) (by norm_num)]
      norm_num
    · norm_num
  rw [h1]
  have harg : 7205759403792794 * (2 : ℚ) ^ (-(54 : ℤ)) * ((90 : ℕ) : ℚ) =
      648518346341351460 * (2 : ℚ) ^ (-(54 : ℤ)) := by
    push_cast
    ring_nf
  rw [harg]
  have h2 : fl64 ((648518346341351460 : ℚ) * (2 : ℚ) ^ (-(54 : ℤ))) = 36 := by
    apply fl64_eq_of_pos _ _ 5 5066549580791808 (by norm_num) (by norm_num)
      (by norm_num)
    · exact rne_eq_of_lt_half _ _ (by norm_num) (by norm_num)
    · norm_num
  rw [h2]
  norm_num
  rfl

/-- Boundary `int(5/10 * 90) = 45` (both roundings are exact). -/
theorem mp90_5 : modelPartsF 90 10 5 = 45 := by
  unfold modelPartsF
  have h1 : fl64 (((5 : ℕ) : ℚ) / ((10 : ℕ) : ℚ)) = 1 / 2 := by
    have hc : ((5 : ℕ) : ℚ) / ((10 : ℕ) : ℚ) = 1 / 2 := by norm_num
    rw [hc]
    apply fl64_of_rep _ 1 (-1) (by norm_num) (by norm_num)
    norm_num
  rw [h1]
  have harg : (1 : ℚ) / 2 * ((90 : ℕ) : ℚ) = 45 := by
    push_cast
    norm_num
  rw [harg, fl64_fortyfive]
  norm_num
  rfl

/-- Boundary `int(6/10 * 90) = 54`. -/
theorem mp90_6 : modelPartsF 90 10 6 = 54 := by
  unfold modelPartsF
  have h1 : fl64 (((6 : ℕ) : ℚ) / ((10 : ℕ) : ℚ)) =
      5404319552844595 * (2 : ℚ) ^ (-(53 : ℤ)) := by
    have hc : ((6 : ℕ) : ℚ) / ((10 : ℕ) : ℚ) = 3 / 5 := by norm_num
    rw [hc]
    apply fl64_eq_of_pos _ _ (-1) 5404319552844595 (by norm_num) (by norm_num)
      (by norm_num)
    · exact rne_eq_of_lt_half _ _ (by norm_num) (by norm_num)
    · norm_num
  rw [h1]
  have harg : 5404319552844595 * (2 : ℚ) ^ (-(53 : ℤ)) * ((90 : ℕ) : ℚ) =
      486388759756013550 * (2 : ℚ) ^ (-(53 : ℤ)) := by
    push_cast
    ring_nf
  rw [harg]
  have h2 : fl64 ((486388759756013550 : ℚ) * (2 : ℚ) ^ (-(53 : ℤ))) = 54 := by
    apply fl64_eq_of_pos _ _ 5 7599824371187712 (by norm_num) (by norm_num)
      (by norm_num)
    · rw [rne_eq_of_half_lt _ 7599824371187711 (by norm_num) (by norm_num)]
      norm_num
    · norm_num
  rw [h2]
  norm_num
  rfl

/-- Boundary `int(7/10 * 90) = 62` — one below the exact
`⌊7 * 90 / 10⌋ = 63`. -/
theorem mp90_7 : modelPartsF 90 10 7 = 62 := by
  unfold modelPartsF
  have h1 : fl64 (((7 : ℕ) : ℚ) / ((10 : ℕ) : ℚ)) =
      6305039478318694 * (2 : ℚ) ^ (-(53 : ℤ)) := by
    have hc : ((7 : ℕ) : ℚ) / ((10 : ℕ) : ℚ) = 7 / 10 := by norm_num
    rw [hc]
    apply fl64_eq_of_pos _ _ (-1) 6305039478318694 (by norm_num) (by norm_num)
      (by norm_num)
    · exact rne_eq_of_lt_half _ _ (by norm_num) (by norm_num)
    · norm_num
  rw [h1]
  have harg : 6305039478318694 * (2 : ℚ) ^ (-(53 : ℤ)) * ((90 : ℕ) : ℚ) =
      567453553048682460 * (2 : ℚ) ^ (-(53 : ℤ)) := by
    push_cast
    ring_nf
  rw [harg]
  have h2 : fl64 ((567453553048682460 : ℚ) * (2 : ℚ) ^ (-(53 : ℤ))) =
      8866461766385663 * (2 : ℚ) ^ (-(47 : ℤ)) := by
    apply fl64_eq_of_pos _ _ 5 8866461766385663 (by norm_num) (by norm_num)
      (by norm_num)
    · exact rne_eq_of_lt_half _ _ (by norm_num) (by norm_num)
    · norm_num
  rw [h2]
  norm_num
  rfl

/-- Boundary `int(8/10 * 90) = 72`. -/
theorem mp90_8 : modelPartsF 90 10 8 = 72 := by
  unfold modelPartsF
  have h1 : fl64 (((8 : ℕ) : ℚ) / ((10 : ℕ) : ℚ)) =
      7205759403792794 * (2 : ℚ) ^ (-(53 : ℤ)) := by
    have hc : ((8 : ℕ) : ℚ) / ((10 : ℕ) : ℚ) = 4 / 5 := by norm_num
    rw [hc]
    apply fl64_eq_of_pos _ _ (-1) 7205759403792794 (by norm_num) (by norm_num)
      (by norm_num)
    · rw [rne_eq_of_half_lt _ 7205759403792793 (by norm_num) (by norm_num)]
      norm_num
    · norm_num
  rw [h1]
  have harg : 7205759403792794 * (2 : ℚ) ^ (-(53 : ℤ)) * ((90 : ℕ) : ℚ) =
      648518346341351460 * (2 : ℚ) ^ (-(53 : ℤ)) := by
    push_cast
    ring_nf
  rw [harg]
  have h2 : fl64 ((648518346341351460 : ℚ) * (2 : ℚ) ^ (-(53 : ℤ))) = 72 := by
    apply fl64_eq_of_pos _ _ 6 5066549580791808 (by norm_num) (by norm_num)
      (by norm_num)
    · exact rne_eq_of_lt_half _ _ (by norm_num) (by norm_num)
    · norm_num
  rw [h2]
  norm_num
  rfl

/-- Boundary `int(9/10 * 90) = 81`. -/
theorem mp90_9 : modelPartsF 90 10 9 = 81 := by
  unfold modelPartsF
  have h1 : fl64 (((9 : ℕ) : ℚ) / ((10 : ℕ) : ℚ)) =
      8106479329266893 * (2 : ℚ) ^ (-(53 : ℤ)) := by
    have hc : ((9 : ℕ) : ℚ) / ((10 : ℕ) : ℚ) = 9 / 10 := by norm_num
    rw [hc]
    apply fl64_eq_of_pos _ _ (-1) 8106479329266893 (by norm_num) (by norm_num)
      (by norm_num)
    · rw [rne_eq_of_half_lt _ 8106479329266892 (by norm_num) (by norm_num)]
      norm_num
    · norm_num
  rw [h1]
  have harg : 8106479329266893 * (2 : ℚ) ^ (-(53 : ℤ)) * ((90 : ℕ) : ℚ) =
      729583139634020370 * (2 : ℚ) ^ (-(53 : ℤ)) := by
    push_cast
    ring_nf
  rw [harg]
  have h2 : fl64 ((729583139634020370 : ℚ) * (2 : ℚ) ^ (-(53 : ℤ))) = 81 := by
    apply fl64_eq_of_pos _ _ 6 5699868278390784 (by norm_num) (by norm_num)
      (by norm_num)
    · exact rne_eq_of_lt_half _ _ (by norm_num) (by norm_num)
    · norm_num
  rw [h2]
  norm_num
  rfl

/-- Boundary `int(10/10 * 90) = 90` (both roundings are exact). -/
theorem mp90_10 : modelPartsF 90 10 10 = 90 := by
  unfold modelPartsF
  have h1 : fl64 (((10 : ℕ) : ℚ) / ((10 : ℕ) : ℚ)) = 1 := by
    have hc : ((10 : ℕ) : ℚ) / ((10 : ℕ) : ℚ) = 1 := by norm_num
    rw [hc, fl64_one]
  rw [h1]
  have harg : (1 : ℚ) * ((90 : ℕ) : ℚ) = 90 := by
    push_cast
    norm_num
  rw [harg, fl64_ninety]
  norm_num
  rfl

/-- For `L = 90`, `N = 10` the linspace step `90/10 = 9` is exactly
representable, so every binary64 linspace boundary agrees with the exact
value `9 * p`. -/
theorem linspaceIntF_90_10 (p : ℕ) (hp : p ≤ 10) :
    linspaceIntF 90 10 p = 9 * p := by
  unfold linspaceIntF
  have h90 : fl64 ((90 : ℕ) : ℚ) = 90 := by
    norm_num
    exact fl64_ninety
  by_cases hpN : p = 10
  · subst hpN
    rw [if_pos rfl, h90]
    norm_num
    rfl
  · rw [if_neg hpN]
    have h10 : fl64 ((10 : ℕ) : ℚ) = 10 := by
      norm_num
      have h := fl64_natCast 10 (by norm_num) (by norm_num)
      norm_num at h
      exact h
    rw [h90, h10]
    have hstep : fl64 ((90 : ℚ) / 10) = 9 := by
      have hc : (90 : ℚ) / 10 = 9 := by norm_num
      rw [hc, fl64_nine]
    rw [hstep]
    rcases Nat.eq_zero_or_pos p with h0 | h0
    · subst h0
      norm_num [fl64_zero]
    · have h9p : fl64 ((p : ℚ) * 9) = ((9 * p : ℕ) : ℚ) := by
        have hc : (p : ℚ) * 9 = ((9 * p : ℕ) : ℚ) := by push_cast; ring
        rw [hc]
        exact fl64_natCast (9 * p) (by omega)
          (Nat.lt_of_le_of_lt (by omega : 9 * p ≤ 90) (by norm_num))
      rw [h9p, Int.floor_natCast, Int.toNat_natCast]

/-- The binary64 linspace boundary at `L = 26`, `N = 46`, `p = 23` is
`12`, one below the exact `⌊23 * 26 / 46⌋ = 13`: the step `26/46` rounds
down, and `23 * fl64(26/46)` rounds to just below `13`. -/
theorem linspaceIntF_26_46_23 : linspaceIntF 26 46 23 = 12 := by
  unfold linspaceIntF
  rw [if_neg (by norm_num)]
  have hL : fl64 ((26 : ℕ) : ℚ) = 26 := by
    norm_num
    have h := fl64_natCast 26 (by norm_num) (by norm_num)
    norm_num at h
    exact h
  have hN : fl64 ((46 : ℕ) : ℚ) = 46 := by
    norm_num
    have h := fl64_natCast 46 (by norm_num) (by norm_num)
    norm_num at h
    exact h
  rw [hL, hN]
  have h1 : fl64 ((26 : ℚ) / 46) = 5091025665723169 * (2 : ℚ) ^ (-(53 : ℤ)) := by
    apply fl64_eq_of_pos _ _ (-1) 5091025665723169 (by norm_num) (by norm_num)
      (by norm_num)
    · exact rne_eq_of_lt_half _ _ (by norm_num) (by norm_num)
    · norm_num
  rw [h1]
  have harg : ((23 : ℕ) : ℚ) * (5091025665723169 * (2 : ℚ) ^ (-(53 : ℤ))) =
      117093590311632887 * (2 : ℚ) ^ (-(53 : ℤ)) := by
    push_cast
    ring_nf
  rw [harg]
  have h2 : fl64 ((117093590311632887 : ℚ) * (2 : ℚ) ^ (-(53 : ℤ))) =
      7318349394477055 * (2 : ℚ) ^ (-(49 : ℤ)) := by
    apply fl64_eq_of_pos _ _ 3 7318349394477055 (by norm_num) (by norm_num)
      (by norm_num)
    · exact rne_eq_of_lt_half _ _ (by norm_num) (by norm_num)
    · norm_num
  rw [h2]
  norm_num
  rfl

/-- The binary64 trigger sum on the counterexample series:
`100 + (-1)` is exact. -/
theorem fl64_trigger_100 : fl64 ((100 : ℚ) + -1) = 99 := by
  have hc : (100 : ℚ) + -1 = 99 := by norm_num
  rw [hc, fl64_ninetynine]

/-- On the constant-100 series with `limit = -1` every non-empty segment
of the source scan triggers at its first index. -/
theorem segScanF_const100 (s t : ℕ) (hst : s < t) (ht : t ≤ 90) :
    segScanF (List.replicate 90 (100 : ℚ)) (-1) s t = some s := by
  unfold segScanF
  rw [if_neg (by omega)]
  have hdrop : (List.replicate 90 (100 : ℚ)).drop s =
      List.replicate (90 - s) (100 : ℚ) := List.drop_replicate (100 : ℚ) s 90
  have hso : segOf (List.replicate 90 (100 : ℚ)) s t =
      List.replicate (t - s) (100 : ℚ) := by
    unfold segOf
    rw [hdrop, List.take_replicate]
    congr 1
    omega
  obtain ⟨k, hk⟩ : ∃ k, 90 - s = k + 1 := ⟨90 - s - 1, by omega⟩
  obtain ⟨k2, hk2⟩ : ∃ k2, t - s = k2 + 1 := ⟨t - s - 1, by omega⟩
  rw [hso, hdrop, hk, hk2, List.replicate_succ, List.replicate_succ]
  show scanSegmentF (-1) 100 s ((100 : ℚ) :: List.replicate k2 (100 : ℚ)) = some s
  rw [scanSegmentF]
  rw [if_pos (by rw [fl64_trigger_100]; norm_num)]

/-- The while-loop analogue on the constant-100 series triggers at its
first iteration. -/
theorem whileScanAuxF_const100 (n i : ℕ) (hn : 0 < n) (hi : i < 90) :
    whileScanAuxF (List.replicate 90 (100 : ℚ)) (-1) n 100 i = some i := by
  obtain ⟨k, rfl⟩ : ∃ k, n = k + 1 := ⟨n - 1, by omega⟩
  have hp : (List.replicate 90 (100 : ℚ)).getD i 0 = 100 := by
    rw [List.getD_eq_getElem _ _ (by simpa using hi), List.getElem_replicate]
  rw [whileScanAuxF]
  simp only [hp]
  rw [if_pos (by rw [fl64_trigger_100]; norm_num)]

/-- Boundary reads on the constant-100 series. -/
theorem get100 (i : ℕ) (hi : i < 90) :
    (List.replicate 90 (100 : ℚ)).get? i = some 100 := by
  rw [List.get?_eq_getElem?, List.getElem?_replicate_of_lt hi]

/-- With binary64 arithmetic the source scheduler on the constant-100
series of length 90, `N = 10`, `limit = -1`, buys at the exact
boundaries `0, 9, ..., 81` (each segment triggers at its start). -/
theorem schedBuysF_90 :
    schedBuysF (List.replicate 90 (100 : ℚ)) 10 (-1) =
      [0, 9, 18, 27, 36, 45, 54, 63, 72, 81] := by
  unfold schedBuysF
  rw [List.length_replicate]
  have hrange : List.range 10 = [0, 1, 2, 3, 4, 5, 6, 7, 8, 9] := by decide
  rw [hrange]
  have b0 : linspaceIntF 90 10 0 = 0 := (linspaceIntF_90_10 0 (by omega)).trans (by norm_num)
  have b1 : linspaceIntF 90 10 1 = 9 := (linspaceIntF_90_10 1 (by omega)).trans (by norm_num)
  have b2 : linspaceIntF 90 10 2 = 18 := (linspaceIntF_90_10 2 (by omega)).trans (by norm_num)
  have b3 : linspaceIntF 90 10 3 = 27 := (linspaceIntF_90_10 3 (by omega)).trans (by norm_num)
  have b4 : linspaceIntF 90 10 4 = 36 := (linspaceIntF_90_10 4 (by omega)).trans (by norm_num)
  have b5 : linspaceIntF 90 10 5 = 45 := (linspaceIntF_90_10 5 (by omega)).trans (by norm_num)
  have b6 : linspaceIntF 90 10 6 = 54 := (linspaceIntF_90_10 6 (by omega)).trans (by norm_num)
  have b7 : linspaceIntF 90 10 7 = 63 := (linspaceIntF_90_10 7 (by omega)).trans (by norm_num)
  have b8 : linspaceIntF 90 10 8 = 72 := (linspaceIntF_90_10 8 (by omega)).trans (by norm_num)
  have b9 : linspaceIntF 90 10 9 = 81 := (linspaceIntF_90_10 9 (by omega)).trans (by norm_num)
  have b10 : linspaceIntF 90 10 10 = 90 := (linspaceIntF_90_10 10 (by omega)).trans (by norm_num)
  have s0 := segScanF_const100 0 9 (by omega) (by omega)
  have s1 := segScanF_const100 9 18 (by omega) (by omega)
  have s2 := segScanF_const100 18 27 (by omega) (by omega)
  have s3 := segScanF_const100 27 36 (by omega) (by omega)
  have s4 := segScanF_const100 36 45 (by omega) (by omega)
  have s5 := segScanF_const100 45 54 (by omega) (by omega)
  have s6 := segScanF_const100 54 63 (by omega) (by omega)
  have s7 := segScanF_const100 63 72 (by omega) (by omega)
  have s8 := segScanF_const100 72 81 (by omega) (by omega)
  have s9 := segScanF_const100 81 90 (by omega) (by omega)
  norm_num [List.filterMap_cons, List.filterMap_nil, b0, b1, b2, b3, b4, b5,
    b6, b7, b8, b9, b10, s0, s1, s2, s3, s4, s5, s6, s7, s8, s9]

/-- With binary64 arithmetic modelling.py's scheduler on the same input
buys at `0, 9, ..., 54, 62, 72, 81`: the seventh boundary is `62`, not
`63`. -/
theorem modelBuysF_90 :
    modelBuysF (List.replicate 90 (100 : ℚ)) 10 (-1) =
      some [0, 9, 18, 27, 36, 45, 54, 62, 72, 81] := by
  unfold modelBuysF
  rw [if_neg (by norm_num), List.length_replicate]
  have hsome : ∀ p ∈ List.range 10,
      ((fun p => (List.replicate 90 (100 : ℚ)).get? (modelPartsF 90 10 p)) p).isSome := by
    intro p hp
    have hplt : p < 10 := List.mem_range.mp hp
    interval_cases p <;>
      simp [mp90_0, mp90_1, mp90_2, mp90_3, mp90_4, mp90_5, mp90_6, mp90_7,
        mp90_8, mp90_9, get100]
  rw [foldl_collect (fun p => (List.replicate 90 (100 : ℚ)).get? (modelPartsF 90 10 p))
    (fun p r => whileScanAuxF (List.replicate 90 (100 : ℚ)) (-1)
      (modelPartsF 90 10 (p + 1) - modelPartsF 90 10 p) r (modelPartsF 90 10 p))
    (List.range 10) [] hsome]
  have hrange : List.range 10 = [0, 1, 2, 3, 4, 5, 6, 7, 8, 9] := by decide
  rw [hrange]
  have g0 := get100 0 (by omega)
  have g9 := get100 9 (by omega)
  have g18 := get100 18 (by omega)
  have g27 := get100 27 (by omega)
  have g36 := get100 36 (by omega)
  have g45 := get100 45 (by omega)
  have g54 := get100 54 (by omega)
  have g62 := get100 62 (by omega)
  have g72 := get100 72 (by omega)
  have g81 := get100 81 (by omega)
  have w0 := whileScanAuxF_const100 9 0 (by omega) (by omega)
  have w1 := whileScanAuxF_const100 9 9 (by omega) (by omega)
  have w2 := whileScanAuxF_const100 9 18 (by omega) (by omega)
  have w3 := whileScanAuxF_const100 9 27 (by omega) (by omega)
  have w4 := whileScanAuxF_const100 9 36 (by omega) (by omega)
  have w5 := whileScanAuxF_const100 9 45 (by omega) (by omega)
  have w6 := whileScanAuxF_const100 8 54 (by omega) (by omega)
  have w7 := whileScanAuxF_const100 10 62 (by omega) (by omega)
  have w8 := whileScanAuxF_const100 9 72 (by omega) (by omega)
  have w9 := whileScanAuxF_const100 9 81 (by omega) (by omega)
  norm_num [List.filterMap_cons, List.filterMap_nil, mp90_0, mp90_1, mp90_2,
    mp90_3, mp90_4, mp90_5, mp90_6, mp90_7, mp90_8, mp90_9, mp90_10,
    g0, g9, g18, g27, g36, g45, g54, g62, g72, g81,
    w0, w1, w2, w3, w4, w5, w6, w7, w8, w9]

/-! ## Claims -/

/-- C1: for the input price series `[100, 90, 80, 95, 70, 85, 110]` with
`limit = 10` and `N = 1`, the scheduler selects exactly one execution at
index 3 with executed price 95, and for total volume `V = 1000` the
aggregated total cost is `95 * 1000 = 95000`. -/
theorem C1_concrete_scenario :
    sched_proc [100, 90, 80, 95, 70, 85, 110] 1000 1 10 = ([3], 95000) ∧
    ([100, 90, 80, 95, 70, 85, 110] : List ℚ).getD 3 0 = 95 := by
  constructor
  · norm_num [sched_proc, segScan, scanSegment, scanStep, segOf, linspaceInt_eq,
      List.range_succ, List.filterMap_cons, List.filterMap_nil]
  · norm_num

/-- C2: whenever the scheduler records an execution, it lies in some
segment `[start, stop)`, the reference the scan had accumulated there
satisfies the trigger condition `price[j] > reference + limit`, that
reference never exceeds `price[start]`, and no earlier index of the
segment satisfied the trigger against its own running reference
(first-trigger policy: the earliest qualifying index wins). -/
theorem C2_first_trigger (price : List ℚ) (mwhs : ℚ) (N : ℕ) (limit : ℚ)
    (j : ℕ) (hj : j ∈ (sched_proc price mwhs N limit).1) :
    ∃ p, p < N ∧
      linspaceInt price.length N p ≤ j ∧
      j < linspaceInt price.length N (p + 1) ∧
      linspaceInt price.length N (p + 1) ≤ price.length ∧
      refAt (price.getD (linspaceInt price.length N p) 0)
          (segOf price (linspaceInt price.length N p)
            (linspaceInt price.length N (p + 1)))
          (j - linspaceInt price.length N p) + limit < price.getD j 0 ∧
      refAt (price.getD (linspaceInt price.length N p) 0)
          (segOf price (linspaceInt price.length N p)
            (linspaceInt price.length N (p + 1)))
          (j - linspaceInt price.length N p) ≤
        price.getD (linspaceInt price.length N p) 0 ∧
      ∀ m, linspaceInt price.length N p ≤ m → m < j →
        price.getD m 0 ≤
          refAt (price.getD (linspaceInt price.length N p) 0)
            (segOf price (linspaceInt price.length N p)
              (linspaceInt price.length N (p + 1)))
            (m - linspaceInt price.length N p) + limit := by
  rw [sched_proc_fst] at hj
  obtain ⟨p, hpmem, hps⟩ := List.mem_filterMap.mp hj
  have hpN : p < N := List.mem_range.mp hpmem
  have hN : 1 ≤ N := by omega
  have hstopL : linspaceInt price.length N (p + 1) ≤ price.length := by
    rw [linspaceInt_eq _ _ _ hN]
    exact parts_le _ _ _ (by omega)
  have hss : linspaceInt price.length N p < linspaceInt price.length N (p + 1) := by
    by_contra hc
    rw [segScan_none_of_le price limit _ _ (by omega)] at hps
    exact Option.noConfusion hps
  rw [segScan_eq price limit _ _ hss hstopL] at hps
  obtain ⟨k, hk, hjk, htrig, hle, hmin⟩ := scanSegment_spec _ limit _ _ j hps
  rw [segOf_length _ _ _ hstopL] at hk
  refine ⟨p, hpN, by omega, by omega, hstopL, ?_, ?_, ?_⟩
  · have hkj : k = j - linspaceInt price.length N p := by omega
    have hget := segOf_getD price (linspaceInt price.length N p)
      (linspaceInt price.length N (p + 1)) k (by omega) hstopL
    rw [← hkj]
    rw [show j = linspaceInt price.length N p + k from by omega, ← hget]
    exact htrig
  · have hkj : k = j - linspaceInt price.length N p := by omega
    rw [← hkj]
    exact hle
  · intro m hm1 hm2
    have hmk : m - linspaceInt price.length N p < k := by omega
    have hget := segOf_getD price (linspaceInt price.length N p)
      (linspaceInt price.length N (p + 1)) (m - linspaceInt price.length N p)
      (by omega) hstopL
    have := hmin (m - linspaceInt price.length N p) hmk
    rw [hget] at this
    rw [show linspaceInt price.length N p + (m - linspaceInt price.length N p) = m
      from by omega] at this
    exact this

/-- Witness for C2 at the concrete scenario of C1: index 3 is executed,
and the first-trigger properties hold for it. -/
theorem C2_first_trigger_witness :
    3 ∈ (sched_proc [100, 90, 80, 95, 70, 85, 110] 1000 1 10).1 ∧
    ∃ p, p < 1 ∧
      linspaceInt 7 1 p ≤ 3 ∧ 3 < linspaceInt 7 1 (p + 1) ∧
      linspaceInt 7 1 (p + 1) ≤ 7 ∧
      refAt (([100, 90, 80, 95, 70, 85, 110] : List ℚ).getD (linspaceInt 7 1 p) 0)
          (segOf [100, 90, 80, 95, 70, 85, 110] (linspaceInt 7 1 p)
            (linspaceInt 7 1 (p + 1)))
          (3 - linspaceInt 7 1 p) + 10 <
        ([100, 90, 80, 95, 70, 85, 110] : List ℚ).getD 3 0 ∧
      refAt (([100, 90, 80, 95, 70, 85, 110] : List ℚ).getD (linspaceInt 7 1 p) 0)
          (segOf [100, 90, 80, 95, 70, 85, 110] (linspaceInt 7 1 p)
            (linspaceInt 7 1 (p + 1)))
          (3 - linspaceInt 7 1 p) ≤
        ([100, 90, 80, 95, 70, 85, 110] : List ℚ).getD (linspaceInt 7 1 p) 0 ∧
      ∀ m, linspaceInt 7 1 p ≤ m → m < 3 →
        ([100, 90, 80, 95, 70, 85, 110] : List ℚ).getD m 0 ≤
          refAt (([100, 90, 80, 95, 70, 85, 110] : List ℚ).getD (linspaceInt 7 1 p) 0)
            (segOf [100, 90, 80, 95, 70, 85, 110] (linspaceInt 7 1 p)
              (linspaceInt 7 1 (p + 1)))
            (m - linspaceInt 7 1 p) + 10 := by
  have hmem : 3 ∈ (sched_proc [100, 90, 80, 95, 70, 85, 110] 1000 1 10).1 := by
    have h : (sched_proc [100, 90, 80, 95, 70, 85, 110] 1000 1 10).1 = [3] := by
      norm_num [sched_proc, segScan, scanSegment, scanStep, segOf, linspaceInt_eq,
        List.range_succ, List.filterMap_cons, List.filterMap_nil]
    rw [h]
    exact List.mem_singleton.mpr rfl
  exact ⟨hmem, C2_first_trigger [100, 90, 80, 95, 70, 85, 110] 1000 1 10 3 hmem⟩

/-- C3: for every `L` and `N ≥ 1` the linspace boundaries start at `0`,
end at `L`, are non-decreasing, and the `N` half-open ranges they bound
partition `[0, L)`: every index below `L` lies in exactly one of them. -/
theorem C3_partition_exact (L N : ℕ) (hN : 1 ≤ N) :
    linspaceInt L N 0 = 0 ∧ linspaceInt L N N = L ∧
    (∀ p, p < N → linspaceInt L N p ≤ linspaceInt L N (p + 1)) ∧
    (∀ i, i < L →
      ∃! p, p < N ∧ linspaceInt L N p ≤ i ∧ i < linspaceInt L N (p + 1)) := by
  have heq : ∀ p, linspaceInt L N p = p * L / N := fun p => linspaceInt_eq L N p hN
  refine ⟨?_, ?_, ?_, ?_⟩
  · rw [heq]
    simp
  · rw [heq, Nat.mul_div_cancel_left L (by omega)]
  · intro p hp
    rw [heq, heq]
    exact parts_mono L N (by omega)
  · intro i hi
    simpa only [heq] using parts_cover L N hN i hi

/-- Witness for C3 at `L = 7`, `N = 3`. -/
theorem C3_partition_exact_witness :
    1 ≤ 3 ∧
    (linspaceInt 7 3 0 = 0 ∧ linspaceInt 7 3 3 = 7 ∧
      (∀ p, p < 3 → linspaceInt 7 3 p ≤ linspaceInt 7 3 (p + 1)) ∧
      (∀ i, i < 7 →
        ∃! p, p < 3 ∧ linspaceInt 7 3 p ≤ i ∧ i < linspaceInt 7 3 (p + 1))) :=
  ⟨by norm_num, C3_partition_exact 7 3 (by norm_num)⟩

/-- C4 counterexample: the boundaries the code computes in binary64 can
fall one below the exact `⌊p * L / N⌋`.  `np.linspace(0, 26, 47,
dtype=int)[23]` is `12` while `⌊23 * 26 / 46⌋ = 13`, and modelling.py's
`int(7/10 * 90)` is `62` while `⌊7 * 90 / 10⌋ = 63`. -/
theorem C4_counterexample :
    linspaceIntF 26 46 23 = 12 ∧ 23 * 26 / 46 = 13 ∧
    modelPartsF 90 10 7 = 62 ∧ 7 * 90 / 10 = 63 :=
  ⟨linspaceIntF_26_46_23, by norm_num, mp90_7, by norm_num⟩

/-- C4 amended: the boundary is the truncated binary64 product, which
agrees with `⌊p * L / N⌋` at the two ends — `0` at `p = 0` and exactly
`L` at `p = N` (for lengths below `2^53`) — but can fall one below it at
interior `p` (see the counterexample). -/
theorem C4_amended (L N : ℕ) (hN : 1 ≤ N) (hL : L < 2 ^ 53)
    (hNb : N < 2 ^ 53) :
    linspaceIntF L N 0 = 0 ∧ linspaceIntF L N N = L ∧
    modelPartsF L N 0 = 0 ∧ modelPartsF L N N = L := by
  have hflL : fl64 ((L : ℕ) : ℚ) = ((L : ℕ) : ℚ) := by
    rcases Nat.eq_zero_or_pos L with h0 | h0
    · subst h0
      simpa using fl64_zero
    · exact fl64_natCast L h0 hL
  refine ⟨?_, ?_, ?_, ?_⟩
  · unfold linspaceIntF
    rw [if_neg (by omega)]
    simp [fl64_zero]
  · unfold linspaceIntF
    rw [if_pos rfl, hflL, Int.floor_natCast, Int.toNat_natCast]
  · unfold modelPartsF
    have h0 : ((0 : ℕ) : ℚ) / ((N : ℕ) : ℚ) = 0 := by simp
    rw [h0, fl64_zero, zero_mul, fl64_zero]
    simp
  · unfold modelPartsF
    have h1 : ((N : ℕ) : ℚ) / ((N : ℕ) : ℚ) = 1 := by
      rw [div_self]
      have hN0 : N ≠ 0 := by omega
      exact_mod_cast hN0
    rw [h1, fl64_one, one_mul, hflL, Int.floor_natCast, Int.toNat_natCast]

/-- Witness for C4 amended at `L = 26`, `N = 46`. -/
theorem C4_amended_witness :
    (1 ≤ 46 ∧ 26 < 2 ^ 53 ∧ 46 < 2 ^ 53) ∧
    (linspaceIntF 26 46 0 = 0 ∧ linspaceIntF 26 46 46 = 26 ∧
      modelPartsF 26 46 0 = 0 ∧ modelPartsF 26 46 46 = 26) :=
  ⟨⟨by norm_num, by norm_num, by norm_num⟩,
    C4_amended 26 46 (by norm_num) (by norm_num) (by norm_num)⟩

/-- C5: the total cost is the sum, over all `N` segments, of
`executed_price * (V / N)` for the executed segments and exactly `0`
for the segments that did not execute (no volume redistribution), and it
is exactly `0` when no segment executes. -/
theorem C5_cost_aggregation (price : List ℚ) (mwhs : ℚ) (N : ℕ) (limit : ℚ) :
    (sched_proc price mwhs N limit).2 =
      ((List.range N).map (fun p =>
        match segScan price limit (linspaceInt price.length N p)
            (linspaceInt price.length N (p + 1)) with
        | some j => price.getD j 0 * (mwhs / (N : ℚ))
        | none => 0)).sum ∧
    ((sched_proc price mwhs N limit).1 = [] →
      (sched_proc price mwhs N limit).2 = 0) := by
  refine ⟨sched_proc_total_decomp price mwhs N limit, ?_⟩
  intro h
  rw [sched_proc_snd, h]
  simp

/-- Witness for C5 on a series where no segment executes: the total is
`0`. -/
theorem C5_cost_aggregation_witness :
    (sched_proc [100] 1000 1 10).1 = [] ∧ (sched_proc [100] 1000 1 10).2 = 0 := by
  have hb : (sched_proc [100] 1000 1 10).1 = [] := by
    norm_num [sched_proc, segScan, scanSegment, scanStep, segOf, linspaceInt_eq,
      List.range_succ, List.filterMap_cons, List.filterMap_nil]
  exact ⟨hb, (C5_cost_aggregation [100] 1000 1 10).2 hb⟩

/-- C6: within one segment scan the reference never increases between
consecutive steps, after step `k` it equals the minimum of the initial
reference and the elements examined so far, it is updated to a new value
by the scan's rule exactly as the binary minimum, and it strictly drops
at step `k` exactly when `price[k]` is a new segment-local strict
minimum. -/
theorem C6_reference_invariants (ref : ℚ) (seg : List ℚ) (k : ℕ)
    (hk : k < seg.length) :
    refAt ref seg (k + 1) ≤ refAt ref seg k ∧
    refAt ref seg (k + 1) = min (refAt ref seg k) (seg.getD k 0) ∧
    refAt ref seg k = (seg.take k).foldl min ref ∧
    (refAt ref seg (k + 1) < refAt ref seg k ↔ seg.getD k 0 < refAt ref seg k) := by
  have hsucc := refAt_succ ref seg k hk
  refine ⟨?_, ?_, refAt_eq_min_fold ref seg k, ?_⟩
  · rw [hsucc]
    exact scanStep_le _ _
  · rw [hsucc, scanStep_eq_min]
  · rw [hsucc]
    unfold scanStep
    split_ifs with h
    · exact Iff.rfl
    · exact ⟨fun h2 => absurd h2 (lt_irrefl _), fun h2 => absurd h2 h⟩

/-- Witness for C6 on the one-element segment `[90]` with reference
`100`: the reference drops to `90` at step `0`. -/
theorem C6_reference_invariants_witness :
    0 < ([90] : List ℚ).length ∧
    (refAt 100 [90] (0 + 1) ≤ refAt 100 [90] 0 ∧
      refAt 100 [90] (0 + 1) = min (refAt 100 [90] 0) (([90] : List ℚ).getD 0 0) ∧
      refAt 100 [90] 0 = (([90] : List ℚ).take 0).foldl min 100 ∧
      (refAt 100 [90] (0 + 1) < refAt 100 [90] 0 ↔
        ([90] : List ℚ).getD 0 0 < refAt 100 [90] 0)) :=
  ⟨by norm_num, C6_reference_invariants 100 [90] 0 (by norm_num)⟩

/-- C7 counterexample: on the empty series the source scheduler does
not fail — it completes normally with no executions and total cost `0`
(already at `N = 1`), contradicting the claimed `InputError`. -/
theorem C7_counterexample : sched_proc [] 1000 1 10 = ([], 0) :=
  sched_proc_nil 1000 1 10

/-- C7 amended: scheduling a zero-length series completes normally in
the source version for every `N` (all boundaries are `0`, every segment
is skipped, the result is `([], 0)`); no `InputError` exists in the
code.  The modelling.py variant instead raises `IndexError` reading
`price[parts[0]]`, for every `N ≥ 1`. -/
theorem C7_amended (mwhs : ℚ) (N : ℕ) (limit : ℚ) :
    sched_proc [] mwhs N limit = ([], 0) ∧
    (1 ≤ N → sched_proc_model [] mwhs N limit = none) :=
  ⟨sched_proc_nil mwhs N limit, fun hN => sched_proc_model_nil mwhs N limit hN⟩

/-- Witness for C7 amended at `N = 2`. -/
theorem C7_amended_witness :
    1 ≤ 2 ∧ sched_proc [] 1000 2 10 = ([], 0) ∧
    sched_proc_model [] 1000 2 10 = none :=
  ⟨by norm_num, (C7_amended 1000 2 10).1, (C7_amended 1000 2 10).2 (by norm_num)⟩

/-- C8: with more segments than prices (`N > L`, series non-empty), the
scheduler completes: at least one segment is zero-length, every
zero-length segment is skipped by the `start_idx >= end_idx` guard
(reported not executed without reading any price), and the total is
still the per-segment sum in which such segments contribute `0`. -/
theorem C8_degenerate_segments (price : List ℚ) (mwhs : ℚ) (N : ℕ)
    (limit : ℚ) (hp : price ≠ []) (hLN : price.length < N) :
    (∃ p, p < N ∧
      linspaceInt price.length N p = linspaceInt price.length N (p + 1)) ∧
    (∀ p, linspaceInt price.length N p = linspaceInt price.length N (p + 1) →
      segScan price limit (linspaceInt price.length N p)
        (linspaceInt price.length N (p + 1)) = none) ∧
    (sched_proc price mwhs N limit).2 =
      ((List.range N).map (fun p =>
        match segScan price limit (linspaceInt price.length N p)
            (linspaceInt price.length N (p + 1)) with
        | some j => price.getD j 0 * (mwhs / (N : ℚ))
        | none => 0)).sum := by
  have hL : 1 ≤ price.length := List.length_pos.mpr hp
  have hN : 1 ≤ N := by omega
  have heq : ∀ p, linspaceInt price.length N p = p * price.length / N :=
    fun p => linspaceInt_eq _ _ _ hN
  refine ⟨?_, ?_, sched_proc_total_decomp price mwhs N limit⟩
  · obtain ⟨p, hp1, hp2⟩ := exists_empty_segment price.length N hLN
    refine ⟨p, hp1, ?_⟩
    rw [heq, heq]
    exact hp2
  · intro p hpe
    exact segScan_none_of_le price limit _ _ (le_of_eq hpe.symm)

/-- Witness for C8 at `price = [100]`, `N = 2`. -/
theorem C8_degenerate_segments_witness :
    (([100] : List ℚ) ≠ [] ∧ ([100] : List ℚ).length < 2) ∧
    ((∃ p, p < 2 ∧ linspaceInt 1 2 p = linspaceInt 1 2 (p + 1)) ∧
      (∀ p, linspaceInt 1 2 p = linspaceInt 1 2 (p + 1) →
        segScan [100] 10 (linspaceInt 1 2 p) (linspaceInt 1 2 (p + 1)) = none) ∧
      (sched_proc [100] 1000 2 10).2 =
        ((List.range 2).map (fun p =>
          match segScan [100] 10 (linspaceInt 1 2 p) (linspaceInt 1 2 (p + 1)) with
          | some j => ([100] : List ℚ).getD j 0 * (1000 / (2 : ℚ))
          | none => 0)).sum) :=
  ⟨⟨List.cons_ne_nil _ _, by norm_num⟩,
    C8_degenerate_segments [100] 1000 2 10 (List.cons_ne_nil _ _) (by norm_num)⟩

/-- C9 counterexample: for raw timestamps `[10, 20]` and window `w = 2`
the reduced series's timestamp is `20` — the *last* timestamp of the
block (`time[w-1::w]`), not the first (`10`) as claimed. -/
theorem C9_counterexample :
    time_avg [10, 20] 2 = [20] ∧ (20 : ℚ) ≠ 10 := by
  constructor
  · norm_num [time_avg, List.range_succ]
  · norm_num

/-- C9 amended: for `0 < w` the reduced series has `⌊L/w⌋` entries,
entry `k` of the reduced prices is the arithmetic mean of the `k`-th
non-overlapping block of `w` raw samples (trailing remainder dropped),
and entry `k` of the reduced timestamps is the *last* raw timestamp of
that block (position `(k+1)*w - 1`), not the first. -/
theorem C9_amended (price time : List ℚ) (w : ℕ) (hw : 0 < w) :
    (price_avg price w).length = price.length / w ∧
    (time_avg time w).length = time.length / w ∧
    (∀ k, k < price.length / w →
      (price_avg price w).getD k 0 =
        ((price.drop (k * w)).take w).sum / (w : ℚ) ∧
      ((price.drop (k * w)).take w).length = w) ∧
    (∀ k, k < time.length / w →
      (time_avg time w).getD k 0 = time.getD ((k + 1) * w - 1) 0) := by
  refine ⟨price_avg_length price w, time_avg_length time w, ?_, ?_⟩
  · intro k hk
    exact ⟨price_avg_getD price w k hw hk, block_length price w k hw hk⟩
  · intro k hk
    have h1 : (k + 1) * w = k * w + w := by ring
    rw [time_avg_getD time w k hk, h1]
    congr 1
    omega

/-- Witness for C9 amended at `price = [1, 3]`, `time = [10, 20]`,
`w = 2`. -/
theorem C9_amended_witness :
    0 < 2 ∧
    ((price_avg [1, 3] 2).length = ([1, 3] : List ℚ).length / 2 ∧
      (time_avg [10, 20] 2).length = ([10, 20] : List ℚ).length / 2 ∧
      (∀ k, k < ([1, 3] : List ℚ).length / 2 →
        (price_avg [1, 3] 2).getD k 0 =
          ((([1, 3] : List ℚ).drop (k * 2)).take 2).sum / (2 : ℚ) ∧
        ((([1, 3] : List ℚ).drop (k * 2)).take 2).length = 2) ∧
      (∀ k, k < ([10, 20] : List ℚ).length / 2 →
        (time_avg [10, 20] 2).getD k 0 =
          ([10, 20] : List ℚ).getD ((k + 1) * 2 - 1) 0)) :=
  ⟨by norm_num, C9_amended [1, 3] [10, 20] 2 (by norm_num)⟩

/-- C10 counterexample: with their real binary64 boundary computations
the two implementations disagree.  On the constant-100 series of length
90 with `N = 10` and `limit = -1`, every segment buys at its start
index; the source version's seventh boundary is `63` but modelling.py's
is `62` (`int(7/10 * 90) = 62`), so the executed-index lists differ. -/
theorem C10_counterexample :
    schedBuysF (List.replicate 90 (100 : ℚ)) 10 (-1) =
      [0, 9, 18, 27, 36, 45, 54, 63, 72, 81] ∧
    modelBuysF (List.replicate 90 (100 : ℚ)) 10 (-1) =
      some [0, 9, 18, 27, 36, 45, 54, 62, 72, 81] ∧
    ([0, 9, 18, 27, 36, 45, 54, 63, 72, 81] : List ℕ) ≠
      [0, 9, 18, 27, 36, 45, 54, 62, 72, 81] :=
  ⟨schedBuysF_90, modelBuysF_90, by decide⟩

/-- C10 amended: whenever the two implementations compute the same
partition boundaries — as they always do in exact arithmetic, where both
boundary formulas equal `⌊p * L / N⌋` — they return the same executed
indices and the same total cost, for every non-empty series and
`N ≥ 1` (where neither raises). -/
theorem C10_amended (price : List ℚ) (mwhs : ℚ) (N : ℕ) (limit : ℚ)
    (hp : price ≠ []) (hN : 1 ≤ N) :
    sched_proc_model price mwhs N limit =
      some (sched_proc price mwhs N limit) :=
  model_eq_sched_proc price mwhs N limit hp hN

/-- Witness for C10 amended at `price = [100, 90]`, `N = 2`. -/
theorem C10_amended_witness :
    (([100, 90] : List ℚ) ≠ [] ∧ 1 ≤ 2) ∧
    sched_proc_model [100, 90] 1000 2 10 =
      some (sched_proc [100, 90] 1000 2 10) :=
  ⟨⟨List.cons_ne_nil _ _, by norm_num⟩,
    C10_amended [100, 90] 1000 2 10 (List.cons_ne_nil _ _) (by norm_num)⟩

end EnergyTrading
